import Mathlib

/-!
Verification of the session-state layer of `ircbot.py` (puzzlet/python-irclib).

The development shallowly embeds the data model of the source file:
`IRCDict` (a mapping keyed up to IRC casefolding, backed by a plain
insertion-ordered dictionary `data` plus a `canon_keys` dictionary from
casefolded class to stored spelling), `Channel` (membership/operator/voiced
dictionaries and a channel-mode map), and the `SingleServerIRCBot` event
handlers that mutate them.  Python dictionaries are modelled as
insertion-ordered association lists; operations that can raise exceptions
(`KeyError`, `IndexError`, `TypeError`) return `Option`, with `none`
standing for an uncaught exception.
-/

set_option maxRecDepth 4000

/-- Modelled from the spec: `irc_lower` is defined in `irclib.py`, which is
not part of the provided sources; per the spec (§3, RFC 1459 casemapping)
ASCII letters fold to lowercase and additionally `[`↔`{`, `]`↔`}`, `\`↔`|`,
`^`↔`~` fold together. -/
def irc_lower_char (c : Char) : Char :=
  if c = '[' then '\x7b'
  else if c = ']' then '\x7d'
  else if c = '\\' then '|'
  else if c = '^' then '~'
  else c.toLower

/-- Modelled from the spec: casefolding of an identifier, applied
characterwise (`irclib.irc_lower`). -/
def irc_lower (s : String) : String :=
  String.mk (s.data.map irc_lower_char)

/-- Insertion-ordered association list: the model of a Python `dict`. -/
abbrev KVList (V : Type) := List (String × V)

/-- Python `d[k]` read on a plain dict: first (unique) matching entry. -/
def alookup {V : Type} : KVList V → String → Option V
  | [], _ => none
  | (k, v) :: t, key => if k = key then some v else alookup t key

/-- Python `d[k] = v` on a plain dict: replace in place if the key is
present, otherwise append at the end (insertion order). -/
def aset {V : Type} : KVList V → String → V → KVList V
  | [], key, v => [(key, v)]
  | (k, w) :: t, key, v =>
      if k = key then (k, v) :: t else (k, w) :: aset t key v

/-- Python `del d[k]` on a plain dict (the caller checks presence):
remove the (unique) matching entry. -/
def aerase {V : Type} : KVList V → String → KVList V
  | [], _ => []
  | (k, w) :: t, key => if k = key then t else (k, w) :: aerase t key

/-- The key view of a dict (`d.keys()`), in insertion order. -/
abbrev akeys {V : Type} (l : KVList V) : List String :=
  l.map Prod.fst

/-- `IRCDict` from `ircbot.py`: backing store `data` plus the map
`canon_keys` from casefolded key to the stored spelling. -/
structure IRCDict (V : Type) where
  data : KVList V
  canon_keys : KVList String
  deriving DecidableEq, Repr

namespace IRCDict

variable {V : Type}

/-- `IRCDict.__init__` with no argument. -/
def empty : IRCDict V := ⟨[], []⟩

/-- `IRCDict.__getitem__`: `self.data[self.canon_keys[irc_lower(key)]]`;
`none` models `KeyError`. -/
def getitem (d : IRCDict V) (key : String) : Option V :=
  (alookup d.canon_keys (irc_lower key)).bind (alookup d.data)

/-- `IRCDict.__contains__`: `key in self.data` — a raw-spelling test. -/
def mem (d : IRCDict V) (key : String) : Bool :=
  (alookup d.data key).isSome

/-- `IRCDict.has_key`: `irc_lower(key) in self.canon_keys` — the
casefold-equivalence membership test. -/
def has_key (d : IRCDict V) (key : String) : Bool :=
  (alookup d.canon_keys (irc_lower key)).isSome

/-- `IRCDict.__delitem__`: `ck = irc_lower(key); del self.data[self.canon_keys[ck]];
del self.canon_keys[ck]`; `none` models `KeyError` from either lookup. -/
def delitem (d : IRCDict V) (key : String) : Option (IRCDict V) :=
  match alookup d.canon_keys (irc_lower key) with
  | none => none
  | some k0 =>
      if (alookup d.data k0).isSome then
        some ⟨aerase d.data k0, aerase d.canon_keys (irc_lower key)⟩
      else none

/-- `IRCDict.__setitem__`: `if key in self: del self[key]`, then
`self.data[key] = item; self.canon_keys[irc_lower(key)] = key`. -/
def setitem (d : IRCDict V) (key : String) (v : V) : Option (IRCDict V) :=
  (if d.mem key then d.delitem key else some d).map fun d1 =>
    ⟨aset d1.data key v, aset d1.canon_keys (irc_lower key) key⟩

/-- `IRCDict.update`: `for k, v in ircdict.items(): self.data[k] = v` —
note that `canon_keys` is left untouched. -/
def update (d : IRCDict V) (src : KVList V) : IRCDict V :=
  ⟨src.foldl (fun a kv => aset a kv.1 kv.2) d.data, d.canon_keys⟩

/-- `IRCDict.__init__(ircdict)` with a non-`None` argument: start empty,
then `self.update(ircdict)`. -/
def ofKVList (src : KVList V) : IRCDict V :=
  IRCDict.empty.update src

/-- In-place mutation of the value stored for `key` (the Python pattern
`self.channels[ch].f(...)`): look the object up through `canon_keys` and
`data`, apply the mutating method, and keep it at its place in `data`. -/
def mutate (d : IRCDict V) (key : String) (f : V → Option V) : Option (IRCDict V) :=
  match alookup d.canon_keys (irc_lower key) with
  | none => none
  | some k0 =>
      match alookup d.data k0 with
      | none => none
      | some v => (f v).map fun v' => ⟨aset d.data k0 v', d.canon_keys⟩

/-- Well-formedness of an `IRCDict`: keys of both dictionaries are
duplicate-free, every stored key is its own equivalence class's canonical
spelling, and every `canon_keys` entry maps a class to a stored spelling
of that class.  These hold for every `IRCDict` built by `set`/`delete`
alone (they can be broken by `update`, which skips `canon_keys`). -/
def WF (d : IRCDict V) : Prop :=
  (akeys d.data).Nodup ∧ (akeys d.canon_keys).Nodup ∧
  (∀ k ∈ akeys d.data, alookup d.canon_keys (irc_lower k) = some k) ∧
  (∀ p ∈ d.canon_keys, p.1 = irc_lower p.2 ∧ p.2 ∈ akeys d.data)

instance (d : IRCDict V) : Decidable d.WF := by
  unfold WF
  exact inferInstance

end IRCDict

/-- `Channel` from `ircbot.py`: membership, operator, and voiced
dictionaries (each an `IRCDict` with value `1`), plus the plain `modes`
dictionary from mode letter to optional argument. -/
structure Channel where
  userdict : IRCDict Nat
  operdict : IRCDict Nat
  voiceddict : IRCDict Nat
  modes : KVList (Option String)
  deriving DecidableEq, Repr

namespace Channel

/-- `Channel.__init__`. -/
def init : Channel := ⟨.empty, .empty, .empty, []⟩

/-- `Channel.users()` as the ordered key view of `userdict`. -/
def users (ch : Channel) : List String := akeys ch.userdict.data

/-- `Channel.opers()` as the ordered key view of `operdict`. -/
def opers (ch : Channel) : List String := akeys ch.operdict.data

/-- `Channel.voiced()` as the ordered key view of `voiceddict`. -/
def voicedUsers (ch : Channel) : List String := akeys ch.voiceddict.data

/-- `Channel.has_user`: `nick in self.userdict`. -/
def has_user (ch : Channel) (nick : String) : Bool := ch.userdict.mem nick

/-- `Channel.is_oper`: `nick in self.operdict`. -/
def is_oper (ch : Channel) (nick : String) : Bool := ch.operdict.mem nick

/-- `Channel.is_voiced`: `nick in self.voiceddict`. -/
def is_voiced (ch : Channel) (nick : String) : Bool := ch.voiceddict.mem nick

/-- `Channel.add_user`: `self.userdict[nick] = 1`. -/
def add_user (ch : Channel) (nick : String) : Option Channel :=
  (ch.userdict.setitem nick 1).map fun u => { ch with userdict := u }

/-- `Channel.remove_user`: for each of the three dictionaries,
`if nick in d: del d[nick]`, in source order. -/
def remove_user (ch : Channel) (nick : String) : Option Channel :=
  (if ch.userdict.mem nick then ch.userdict.delitem nick
   else some ch.userdict).bind fun u =>
  (if ch.operdict.mem nick then ch.operdict.delitem nick
   else some ch.operdict).bind fun o =>
  (if ch.voiceddict.mem nick then ch.voiceddict.delitem nick
   else some ch.voiceddict).bind fun v =>
  some { ch with userdict := u, operdict := o, voiceddict := v }

/-- `Channel.change_nick`: add the new nick, delete the old one, and do
the same on `operdict`/`voiceddict` when the old nick is present there. -/
def change_nick (ch : Channel) (before after : String) : Option Channel :=
  (ch.userdict.setitem after 1).bind fun u1 =>
  (u1.delitem before).bind fun u2 =>
  (if ch.operdict.mem before then
     (ch.operdict.setitem after 1).bind fun o1 => o1.delitem before
   else some ch.operdict).bind fun o2 =>
  (if ch.voiceddict.mem before then
     (ch.voiceddict.setitem after 1).bind fun v1 => v1.delitem before
   else some ch.voiceddict).bind fun v2 =>
  some { ch with userdict := u2, operdict := o2, voiceddict := v2 }

/-- `Channel.set_mode`: letter `"o"`/`"v"` inserts the argument nick into
`operdict`/`voiceddict`; any other letter is stored in `modes`.  A missing
argument for `"o"`/`"v"` models the uncaught `TypeError` from casefolding
`None`. -/
def set_mode (ch : Channel) (mode : String) (value : Option String) : Option Channel :=
  if mode = "o" then
    match value with
    | some n => (ch.operdict.setitem n 1).map fun o => { ch with operdict := o }
    | none => none
  else if mode = "v" then
    match value with
    | some n => (ch.voiceddict.setitem n 1).map fun v => { ch with voiceddict := v }
    | none => none
  else
    some { ch with modes := aset ch.modes mode value }

/-- `Channel.clear_mode`: mirror of `set_mode`, with `KeyError` caught and
ignored (`try ... except KeyError: pass`). -/
def clear_mode (ch : Channel) (mode : String) (value : Option String) : Option Channel :=
  if mode = "o" then
    match value with
    | some n =>
        some (match ch.operdict.delitem n with
              | some o => { ch with operdict := o }
              | none => ch)
    | none => none
  else if mode = "v" then
    match value with
    | some n =>
        some (match ch.voiceddict.delitem n with
              | some v => { ch with voiceddict := v }
              | none => ch)
    | none => none
  else
    some { ch with modes := aerase ch.modes mode }

/-- `Channel.has_mode`. -/
def has_mode (ch : Channel) (mode : String) : Bool :=
  (alookup ch.modes mode).isSome

/-- `Channel.has_limit`: `self.has_mode("l")`. -/
def has_limit (ch : Channel) : Bool := ch.has_mode "l"

/-- `Channel.limit`: the stored argument of mode `"l"`, or `None`. -/
def limit (ch : Channel) : Option String :=
  if ch.has_limit then (alookup ch.modes "l").getD none else none

end Channel

/-- The session state owned by `SingleServerIRCBot`: its own current
nickname (`c.get_nickname()`) and the `channels` directory. -/
structure Session where
  nick : String
  channels : IRCDict Channel
  deriving DecidableEq, Repr

namespace Session

/-- `self.channels[target].method(...)`: fetch the channel object and
mutate it in place. -/
def mutateChannel (st : Session) (target : String) (f : Channel → Option Channel) :
    Option Session :=
  (st.channels.mutate target f).map fun d => { st with channels := d }

end Session

/-- `SingleServerIRCBot._on_join`: if the joining nick equals (raw `==`)
the bot's own nickname, install a fresh `Channel` for the target; then
`self.channels[ch].add_user(nick)`. -/
def onJoin (st : Session) (srcNick target : String) : Option Session :=
  (if srcNick = st.nick then
     (st.channels.setitem target Channel.init).map fun d => { st with channels := d }
   else some st).bind fun st1 =>
  st1.mutateChannel target (fun c => c.add_user srcNick)

/-- `SingleServerIRCBot._on_kick`: if the kicked nick equals (raw `==`)
the bot's own nickname, `del self.channels[channel]`; otherwise
`self.channels[channel].remove_user(nick)`. -/
def onKick (st : Session) (kicked target : String) : Option Session :=
  if kicked = st.nick then
    (st.channels.delitem target).map fun d => { st with channels := d }
  else
    st.mutateChannel target (fun c => c.remove_user kicked)

/-- `SingleServerIRCBot._on_part`: same shape as `_on_kick`, keyed on the
parting nick. -/
def onPart (st : Session) (srcNick target : String) : Option Session :=
  if srcNick = st.nick then
    (st.channels.delitem target).map fun d => { st with channels := d }
  else
    st.mutateChannel target (fun c => c.remove_user srcNick)

/-- One nick token of `SingleServerIRCBot._on_namreply`: strip a leading
`@` (operator) or `+` (voiced), `set_mode` accordingly, then `add_user`. -/
def namreplyTok (st : Session) (target tok : String) : Option Session :=
  if tok.data.head? = some '@' then
    (st.mutateChannel target
        (fun c => c.set_mode "o" (some (String.mk (tok.data.drop 1))))).bind fun st1 =>
    st1.mutateChannel target (fun c => c.add_user (String.mk (tok.data.drop 1)))
  else if tok.data.head? = some '+' then
    (st.mutateChannel target
        (fun c => c.set_mode "v" (some (String.mk (tok.data.drop 1))))).bind fun st1 =>
    st1.mutateChannel target (fun c => c.add_user (String.mk (tok.data.drop 1)))
  else
    st.mutateChannel target (fun c => c.add_user tok)

/-- `SingleServerIRCBot._on_namreply`: process the whitespace-split nick
list of the reply in order. -/
def onNamreply (st : Session) (target : String) (toks : List String) : Option Session :=
  toks.foldlM (fun s tok => namreplyTok s target tok) st

/-- A server descriptor from `server_list`: `(host, port)` or
`(host, port, password)`. -/
structure Server where
  host : String
  port : Nat
  password : Option String
  deriving DecidableEq, Repr

/-- The arguments of the `self.connect(...)` call made by
`SingleServerIRCBot._connect` (the external connector; a failed attempt
raises `ServerConnectionError`, which `_connect` swallows). -/
structure ConnectAttempt where
  host : String
  port : Nat
  password : Option String
  nickname : String
  username : String
  realname : String
  ssl : Bool
  deriving DecidableEq, Repr

/-- The `_connect` call for the current head of the rotation. -/
def mkConnect (nick user real : String) (ssl : Bool) (s : Server) : ConnectAttempt :=
  ⟨s.host, s.port, s.password, nick, user, real, ssl⟩

/-- The bot-level state consumed by `jump_server`. -/
structure BotState where
  server_list : List Server
  nickname : String
  username : String
  realname : String
  use_ssl : Bool
  connected : Bool
  deriving DecidableEq, Repr

/-- `SingleServerIRCBot.jump_server`: disconnect (with the quit message)
when connected, rotate `server_list` by one (`append(pop(0))`), then
`_connect` to the new head.  `none` models the `IndexError` of `pop(0)`
on an empty list. -/
def jump_server (b : BotState) (msg : String) :
    Option (List Server × Option String × ConnectAttempt) :=
  match b.server_list with
  | [] => none
  | s :: rest =>
      let rotated := rest ++ [s]
      match rotated with
      | [] => none
      | r0 :: _ =>
          some (rotated, (if b.connected then some msg else none),
                mkConnect b.nickname b.username b.realname b.use_ssl r0)

/-- `SingleServerIRCBot.__init__`: `if not reconnection_interval or
reconnection_interval < 0: reconnection_interval = 2**31`.  `none` models
passing `None`. -/
def storedReconnectionInterval (ri : Option Int) : Int :=
  match ri with
  | none => 2 ^ 31
  | some v => if v = 0 ∨ v < 0 then 2 ^ 31 else v

/-- The channel invariant of the spec: the three membership dictionaries
are well-formed and the operator and voiced key sets are contained (by
stored spelling) in the member key set. -/
def ChanInv (ch : Channel) : Prop :=
  ch.userdict.WF ∧ ch.operdict.WF ∧ ch.voiceddict.WF ∧
  (∀ m ∈ akeys ch.operdict.data, m ∈ akeys ch.userdict.data) ∧
  (∀ m ∈ akeys ch.voiceddict.data, m ∈ akeys ch.userdict.data)

instance (ch : Channel) : Decidable (ChanInv ch) := by
  unfold ChanInv
  exact inferInstance

/-- The operations quantified over by the spec's channel invariant:
`setMode('o', n)`, `setMode('v', n)`, `removeUser(n)`. -/
inductive ChanOp where
  | setO : String → ChanOp
  | setV : String → ChanOp
  | rmU : String → ChanOp
  deriving DecidableEq, Repr

/-- Dispatch of a `ChanOp` to the corresponding `Channel` method. -/
def applyChanOp (ch : Channel) : ChanOp → Option Channel
  | .setO n => ch.set_mode "o" (some n)
  | .setV n => ch.set_mode "v" (some n)
  | .rmU n => ch.remove_user n

/-- Guard under which an operation is issued: a `+o`/`+v` mode change
targets a nick that is currently a member (as the IRC server guarantees
for real event streams); removals are unrestricted. -/
def opGuard (ch : Channel) : ChanOp → Prop
  | .setO n => ch.has_user n = true
  | .setV n => ch.has_user n = true
  | .rmU _ => True

instance (ch : Channel) (op : ChanOp) : Decidable (opGuard ch op) := by
  cases op <;> simp only [opGuard] <;> exact inferInstance

/-- A successful run of guarded channel operations. -/
inductive ChanTrace : Channel → List ChanOp → Channel → Prop where
  | nil (ch : Channel) : ChanTrace ch [] ch
  | cons {ch ch1 ch2 : Channel} {op : ChanOp} {ops : List ChanOp} :
      opGuard ch op → applyChanOp ch op = some ch1 → ChanTrace ch1 ops ch2 →
      ChanTrace ch (op :: ops) ch2

/-- Channel used by the C3 witness: `"n"` is a member and an operator. -/
def c3WitnessChannel : Channel :=
  ⟨⟨[("n", 1)], [("n", "n")]⟩, ⟨[("n", 1)], [("n", "n")]⟩, .empty, []⟩

/-- Channel used by the C4 counterexample: `"ab"` is member and operator. -/
def c4CounterChannel : Channel :=
  ⟨⟨[("ab", 1)], [("ab", "ab")]⟩, ⟨[("ab", 1)], [("ab", "ab")]⟩, .empty, []⟩

/-- Channel used by the C4 witness: `"alice"` is member and operator. -/
def c4WitnessChannel : Channel :=
  ⟨⟨[("alice", 1)], [("alice", "alice")]⟩, ⟨[("alice", 1)], [("alice", "alice")]⟩,
   .empty, []⟩

/-- Session used by the C5 counterexample: the bot's nick is `"Bot"` and
channel `"#c"` contains `"alice"`. -/
def c5CounterSession : Session :=
  ⟨"Bot", ⟨[("#c", ⟨⟨[("alice", 1)], [("alice", "alice")]⟩, .empty, .empty, []⟩)],
          [("#c", "#c")]⟩⟩

/-- Session used by the C5 witness. -/
def c5WitnessChannel : Channel :=
  ⟨⟨[("alice", 1)], [("alice", "alice")]⟩, .empty, .empty, []⟩

def c5WitnessSession : Session :=
  ⟨"Bot", ⟨[("#c", c5WitnessChannel)], [("#c", "#c")]⟩⟩

/-- Session and nick list used by the C6 evaluation. -/
def c6Session : Session := ⟨"Bot", ⟨[("#c", Channel.init)], [("#c", "#c")]⟩⟩

def c6Toks : List String := ["ab", "Ab", "AB"]

/-! ### Association-list lemmas -/

theorem alookup_aset_self {V : Type} (l : KVList V) (k : String) (v : V) :
    alookup (aset l k v) k = some v := by
  induction l with
  | nil => simp [aset, alookup]
  | cons p t ih =>
      obtain ⟨k', w⟩ := p
      by_cases h : k' = k <;> simp [aset, alookup, h, ih]

theorem alookup_aset_ne {V : Type} (l : KVList V) (k m : String) (v : V)
    (h : m ≠ k) : alookup (aset l k v) m = alookup l m := by
  have h' : ¬(k = m) := fun hh => h hh.symm
  induction l with
  | nil => simp [aset, alookup, h']
  | cons p t ih =>
      obtain ⟨k', w⟩ := p
      by_cases hk : k' = k
      · subst hk
        simp [aset, alookup, h']
      · simp [aset, alookup, hk, ih]

theorem alookup_aerase_ne {V : Type} (l : KVList V) (k m : String)
    (h : m ≠ k) : alookup (aerase l k) m = alookup l m := by
  induction l with
  | nil => simp [aerase]
  | cons p t ih =>
      obtain ⟨k', w⟩ := p
      by_cases hk : k' = k
      · subst hk
        have h' : ¬(k' = m) := fun hh => h hh.symm
        simp [aerase, alookup, h']
      · simp [aerase, alookup, hk, ih]

theorem alookup_eq_none_iff {V : Type} (l : KVList V) (k : String) :
    alookup l k = none ↔ k ∉ akeys l := by
  induction l with
  | nil => simp [alookup, akeys]
  | cons p t ih =>
      obtain ⟨k', w⟩ := p
      by_cases h : k' = k
      · subst h
        simp [alookup]
      · have hne : ¬(k = k') := fun hh => h hh.symm
        simp [alookup, h, ih, hne]

theorem alookup_isSome_iff {V : Type} (l : KVList V) (k : String) :
    (alookup l k).isSome = true ↔ k ∈ akeys l := by
  rcases hx : alookup l k with _ | v
  · simp [(alookup_eq_none_iff l k).mp hx]
  · simp only [Option.isSome_some, true_iff]
    by_contra hm
    rw [(alookup_eq_none_iff l k).mpr hm] at hx
    exact Option.noConfusion hx

theorem alookup_aerase_self {V : Type} (l : KVList V) (k : String)
    (h : (akeys l).Nodup) : alookup (aerase l k) k = none := by
  induction l with
  | nil => simp [aerase, alookup]
  | cons p t ih =>
      obtain ⟨k', w⟩ := p
      simp only [akeys, List.map_cons, List.nodup_cons] at h
      by_cases hk : k' = k
      · subst hk
        simp only [aerase, if_pos rfl]
        exact (alookup_eq_none_iff t k').mpr h.1
      · simp [aerase, alookup, hk, ih h.2]

theorem akeys_aset_mem {V : Type} (l : KVList V) (k : String) (v : V)
    (h : k ∈ akeys l) : akeys (aset l k v) = akeys l := by
  induction l with
  | nil => simp [akeys] at h
  | cons p t ih =>
      obtain ⟨k', w⟩ := p
      by_cases hk : k' = k
      · simp [aset, akeys, hk]
      · simp only [akeys, List.map_cons, List.mem_cons] at h
        rcases h with h | h
        · exact absurd h.symm hk
        · simp [aset, akeys, hk, ih h]

theorem akeys_aset_not_mem {V : Type} (l : KVList V) (k : String) (v : V)
    (h : k ∉ akeys l) : akeys (aset l k v) = akeys l ++ [k] := by
  induction l with
  | nil => simp [aset, akeys]
  | cons p t ih =>
      obtain ⟨k', w⟩ := p
      simp only [akeys, List.map_cons, List.mem_cons] at h
      push_neg at h
      have hk : ¬(k' = k) := fun hh => h.1 hh.symm
      simp [aset, akeys, hk, ih h.2]

theorem akeys_aerase {V : Type} (l : KVList V) (k : String) :
    akeys (aerase l k) = (akeys l).erase k := by
  induction l with
  | nil => simp [aerase, akeys]
  | cons p t ih =>
      obtain ⟨k', w⟩ := p
      by_cases hk : k' = k
      · subst hk
        simp [aerase, akeys, List.erase_cons]
      · simp [aerase, akeys, List.erase_cons, hk, ih]

theorem nodup_akeys_aset {V : Type} (l : KVList V) (k : String) (v : V)
    (h : (akeys l).Nodup) : (akeys (aset l k v)).Nodup := by
  by_cases hm : k ∈ akeys l
  · rw [akeys_aset_mem l k v hm]; exact h
  · rw [akeys_aset_not_mem l k v hm]
    rw [List.nodup_append]
    refine ⟨h, List.nodup_singleton k, ?_⟩
    intro a ha hb
    rw [List.mem_singleton] at hb
    subst hb
    exact hm ha

theorem nodup_akeys_aerase {V : Type} (l : KVList V) (k : String)
    (h : (akeys l).Nodup) : (akeys (aerase l k)).Nodup := by
  rw [akeys_aerase]
  exact h.erase k

theorem mem_akeys_aerase {V : Type} (l : KVList V) (k m : String)
    (h : (akeys l).Nodup) :
    m ∈ akeys (aerase l k) ↔ m ∈ akeys l ∧ m ≠ k := by
  rw [akeys_aerase]
  constructor
  · intro hm
    refine ⟨List.mem_of_mem_erase hm, ?_⟩
    intro hEq
    subst hEq
    exact h.not_mem_erase hm
  · intro ⟨hm, hne⟩
    exact (List.mem_erase_of_ne hne).mpr hm

theorem alookup_mem {V : Type} : ∀ (l : KVList V) (c : String) (k0 : V),
    alookup l c = some k0 → (c, k0) ∈ l := by
  intro l
  induction l with
  | nil => intro c k0 h; simp [alookup] at h
  | cons p t ih =>
      intro c k0 h
      obtain ⟨k', w⟩ := p
      by_cases hk : k' = c
      · subst hk
        have hw : w = k0 := by simpa [alookup] using h
        subst hw
        exact List.mem_cons_self _ _
      · simp only [alookup, if_neg hk] at h
        exact List.mem_cons_of_mem _ (ih c k0 h)

theorem mem_aset_iff {V : Type} (l : KVList V) (key : String) (v : V)
    (p : String × V) (h : (akeys l).Nodup) :
    p ∈ aset l key v ↔ p = (key, v) ∨ (p ∈ l ∧ p.1 ≠ key) := by
  induction l with
  | nil => simp [aset]
  | cons q t ih =>
      obtain ⟨k', w⟩ := q
      simp only [akeys, List.map_cons, List.nodup_cons] at h
      have ht := ih h.2
      by_cases hk : k' = key
      · subst hk
        have hnt : ∀ x : V, (k', x) ∉ t := by
          intro x hx
          exact h.1 (List.mem_map_of_mem Prod.fst hx)
        have hset : aset ((k', w) :: t) k' v = (k', v) :: t := by
          simp [aset]
        rw [hset]
        constructor
        · intro hp
          rcases List.mem_cons.mp hp with hq | hq
          · exact Or.inl hq
          · refine Or.inr ⟨List.mem_cons_of_mem _ hq, ?_⟩
            intro hEq
            obtain ⟨a, b⟩ := p
            simp only at hEq
            subst hEq
            exact hnt b hq
        · intro hp
          rcases hp with hp | ⟨hp, hne⟩
          · exact hp ▸ List.mem_cons_self _ _
          · rcases List.mem_cons.mp hp with hp | hp
            · exact absurd (congrArg Prod.fst hp) hne
            · exact List.mem_cons_of_mem _ hp
      · have hset : aset ((k', w) :: t) key v = (k', w) :: aset t key v := by
          simp [aset, hk]
        rw [hset]
        constructor
        · intro hp
          rcases List.mem_cons.mp hp with hp | hp
          · refine Or.inr ⟨hp ▸ List.mem_cons_self _ _, ?_⟩
            rw [hp]
            exact hk
          · rcases ht.mp hp with hp | ⟨hp1, hp2⟩
            · exact Or.inl hp
            · exact Or.inr ⟨List.mem_cons_of_mem _ hp1, hp2⟩
        · intro hp
          rcases hp with hp | ⟨hp, hne⟩
          · exact List.mem_cons_of_mem _ (ht.mpr (Or.inl hp))
          · rcases List.mem_cons.mp hp with hp | hp
            · exact hp ▸ List.mem_cons_self _ _
            · exact List.mem_cons_of_mem _ (ht.mpr (Or.inr ⟨hp, hne⟩))

theorem mem_aerase_iff {V : Type} (l : KVList V) (key : String)
    (p : String × V) (h : (akeys l).Nodup) :
    p ∈ aerase l key ↔ p ∈ l ∧ p.1 ≠ key := by
  induction l with
  | nil => simp [aerase]
  | cons q t ih =>
      obtain ⟨k', w⟩ := q
      simp only [akeys, List.map_cons, List.nodup_cons] at h
      have ht := ih h.2
      by_cases hk : k' = key
      · subst hk
        have hnt : ∀ x : V, (k', x) ∉ t := by
          intro x hx
          exact h.1 (List.mem_map_of_mem Prod.fst hx)
        have hers : aerase ((k', w) :: t) k' = t := by
          simp [aerase]
        rw [hers]
        constructor
        · intro hq
          refine ⟨List.mem_cons_of_mem _ hq, ?_⟩
          intro hEq
          obtain ⟨a, b⟩ := p
          simp only at hEq
          subst hEq
          exact hnt b hq
        · intro ⟨hp, hne⟩
          rcases List.mem_cons.mp hp with hp | hp
          · exact absurd (congrArg Prod.fst hp) hne
          · exact hp
      · have hers : aerase ((k', w) :: t) key = (k', w) :: aerase t key := by
          simp [aerase, hk]
        rw [hers]
        constructor
        · intro hp
          rcases List.mem_cons.mp hp with hp | hp
          · exact ⟨hp ▸ List.mem_cons_self _ _, by rw [hp]; exact hk⟩
          · rcases ht.mp hp with ⟨hp1, hp2⟩
            exact ⟨List.mem_cons_of_mem _ hp1, hp2⟩
        · intro ⟨hp, hne⟩
          rcases List.mem_cons.mp hp with hp | hp
          · exact hp ▸ List.mem_cons_self _ _
          · exact List.mem_cons_of_mem _ (ht.mpr ⟨hp, hne⟩)

theorem alookup_of_mem_nodup {V : Type} : ∀ (l : KVList V) (c : String) (k0 : V),
    (c, k0) ∈ l → (akeys l).Nodup → alookup l c = some k0 := by
  intro l
  induction l with
  | nil => intro c k0 hp _; simp at hp
  | cons q t ih =>
      intro c k0 hp h
      obtain ⟨k', w⟩ := q
      simp only [akeys, List.map_cons, List.nodup_cons] at h
      rcases List.mem_cons.mp hp with hq | hq
      · rw [Prod.mk.injEq] at hq
        obtain ⟨hc, hk⟩ := hq
        subst hc
        subst hk
        simp [alookup]
      · have hne : k' ≠ c := by
          intro hEq
          subst hEq
          exact h.1 (List.mem_map_of_mem Prod.fst hq)
        simp [alookup, hne, ih c k0 hq h.2]

namespace IRCDict

variable {V : Type}

/-- Characterization of a successful `__setitem__` on a well-formed dict:
it always succeeds, stores `v` under the exact spelling `key`, leaves all
other raw keys untouched, and repoints the canonical key of `key`'s class
to `key`. -/
theorem setitem_spec (d : IRCDict V) (key : String) (v : V) (hwf : d.WF) :
    ∃ d', d.setitem key v = some d' ∧
      alookup d'.data key = some v ∧
      (∀ m, m ≠ key → alookup d'.data m = alookup d.data m) ∧
      (∀ m, m ∈ akeys d'.data ↔ m ∈ akeys d.data ∨ m = key) ∧
      (∀ c, c ≠ irc_lower key → alookup d'.canon_keys c = alookup d.canon_keys c) ∧
      alookup d'.canon_keys (irc_lower key) = some key ∧
      (akeys d'.data).Nodup ∧ (akeys d'.canon_keys).Nodup := by
  obtain ⟨hnd, hnc, hcanon, hpairs⟩ := hwf
  by_cases hm : d.mem key = true
  · have hks : key ∈ akeys d.data := (alookup_isSome_iff d.data key).mp hm
    have hck : alookup d.canon_keys (irc_lower key) = some key := hcanon key hks
    have hdel : d.delitem key =
        some ⟨aerase d.data key, aerase d.canon_keys (irc_lower key)⟩ := by
      unfold delitem
      rw [hck]
      simp [IRCDict.mem] at hm
      simp [hm]
    refine ⟨⟨aset (aerase d.data key) key v,
             aset (aerase d.canon_keys (irc_lower key)) (irc_lower key) key⟩, ?_, ?_, ?_, ?_, ?_, ?_, ?_, ?_⟩
    · unfold setitem
      rw [if_pos hm, hdel]
      rfl
    · exact alookup_aset_self _ _ _
    · intro m hne
      rw [alookup_aset_ne _ _ _ _ hne, alookup_aerase_ne _ _ _ hne]
    · intro m
      have hkner : key ∉ akeys (aerase d.data key) := by
        intro hcontra
        exact ((mem_akeys_aerase d.data key key hnd).mp hcontra).2 rfl
      rw [show akeys (aset (aerase d.data key) key v) = akeys (aerase d.data key) ++ [key] from
            akeys_aset_not_mem _ _ _ hkner]
      simp only [List.mem_append, List.mem_singleton, mem_akeys_aerase d.data key m hnd]
      constructor
      · rintro (⟨hm1, _⟩ | hm1)
        · exact Or.inl hm1
        · exact Or.inr hm1
      · rintro (hm1 | hm1)
        · by_cases hmk : m = key
          · exact Or.inr hmk
          · exact Or.inl ⟨hm1, hmk⟩
        · exact Or.inr hm1
    · intro c hne
      rw [alookup_aset_ne _ _ _ _ hne, alookup_aerase_ne _ _ _ hne]
    · exact alookup_aset_self _ _ _
    · exact nodup_akeys_aset _ _ _ (nodup_akeys_aerase _ _ hnd)
    · exact nodup_akeys_aset _ _ _ (nodup_akeys_aerase _ _ hnc)
  · have hm' : d.mem key = false := by
      cases hb : d.mem key
      · rfl
      · exact absurd hb hm
    have hks : key ∉ akeys d.data := by
      intro hcontra
      have hs := (alookup_isSome_iff d.data key).mpr hcontra
      simp [IRCDict.mem, hs] at hm'
    refine ⟨⟨aset d.data key v, aset d.canon_keys (irc_lower key) key⟩, ?_, ?_, ?_, ?_, ?_, ?_, ?_, ?_⟩
    · unfold setitem
      rw [hm']
      rfl
    · exact alookup_aset_self _ _ _
    · intro m hne
      exact alookup_aset_ne _ _ _ _ hne
    · intro m
      rw [akeys_aset_not_mem _ _ _ hks]
      simp
    · intro c hne
      exact alookup_aset_ne _ _ _ _ hne
    · exact alookup_aset_self _ _ _
    · exact nodup_akeys_aset _ _ _ hnd
    · exact nodup_akeys_aset _ _ _ hnc

/-- `__setitem__` preserves well-formedness when the key is either stored
under exactly this spelling or its equivalence class is entirely absent
(the two situations in which the stale-spelling cleanup works). -/
theorem setitem_WF (d : IRCDict V) (key : String) (v : V) (hwf : d.WF)
    (hok : d.mem key = true ∨ d.has_key key = false) :
    ∃ d', d.setitem key v = some d' ∧ d'.WF ∧
      (∀ m, m ∈ akeys d'.data ↔ m ∈ akeys d.data ∨ m = key) := by
  obtain ⟨d', hset, hkey, hother, hkeys, hcother, hckey, hnd', hnc'⟩ :=
    setitem_spec d key v hwf
  obtain ⟨hnd, hnc, hcanon, hpairs⟩ := hwf
  refine ⟨d', hset, ⟨hnd', hnc', ?_, ?_⟩, hkeys⟩
  · intro m hmem
    rcases (hkeys m).mp hmem with hm | hm
    · by_cases hmk : m = key
      · subst hmk
        exact hckey
      · by_cases hcl : irc_lower m = irc_lower key
        · exfalso
          rcases hok with hok | hok
          · have hks : key ∈ akeys d.data := (alookup_isSome_iff d.data key).mp hok
            have h1 := hcanon m hm
            have h2 := hcanon key hks
            rw [hcl] at h1
            rw [h1] at h2
            exact hmk (Option.some_inj.mp h2)
          · have h1 := hcanon m hm
            rw [hcl] at h1
            simp [IRCDict.has_key, h1] at hok
        · rw [hcother (irc_lower m) hcl]
          exact hcanon m hm
    · subst hm
      exact hckey
  · intro p hp
    by_cases hpk : p.1 = irc_lower key
    · have hlv : alookup d'.canon_keys p.1 = some p.2 := by
        have hnodup := hnc'
        rcases p with ⟨c, k0⟩
        exact alookup_of_mem_nodup _ _ _ hp hnodup
      rw [hpk] at hlv
      rw [hckey] at hlv
      have hpk2 : p.2 = key := (Option.some_inj.mp hlv).symm
      constructor
      · rw [hpk, hpk2]
      · rw [hpk2]
        exact (hkeys key).mpr (Or.inr rfl)
    · have hlv : alookup d'.canon_keys p.1 = some p.2 := by
        rcases p with ⟨c, k0⟩
        exact alookup_of_mem_nodup _ _ _ hp hnc'
      rw [hcother p.1 hpk] at hlv
      have hmem := alookup_mem d.canon_keys p.1 p.2 hlv
      obtain ⟨h1, h2⟩ := hpairs _ hmem
      exact ⟨h1, (hkeys p.2).mpr (Or.inl h2)⟩

/-- Characterization of `__delitem__` on a well-formed dict when the key
is stored under exactly this spelling: it removes that entry and its
canonical-key record and nothing else, preserving well-formedness. -/
theorem delitem_spec (d : IRCDict V) (key : String) (hwf : d.WF)
    (hm : d.mem key = true) :
    ∃ d', d.delitem key = some d' ∧ d'.WF ∧
      alookup d'.data key = none ∧
      (∀ m, m ≠ key → alookup d'.data m = alookup d.data m) ∧
      (∀ m, m ∈ akeys d'.data ↔ m ∈ akeys d.data ∧ m ≠ key) ∧
      alookup d'.canon_keys (irc_lower key) = none ∧
      (∀ c, c ≠ irc_lower key → alookup d'.canon_keys c = alookup d.canon_keys c) := by
  obtain ⟨hnd, hnc, hcanon, hpairs⟩ := hwf
  have hks : key ∈ akeys d.data := (alookup_isSome_iff d.data key).mp hm
  have hck : alookup d.canon_keys (irc_lower key) = some key := hcanon key hks
  have hsome : (alookup d.data key).isSome = true := hm
  refine ⟨⟨aerase d.data key, aerase d.canon_keys (irc_lower key)⟩, ?_, ?_, ?_, ?_, ?_, ?_, ?_⟩
  · unfold delitem
    rw [hck]
    simp [hsome]
  · refine ⟨nodup_akeys_aerase _ _ hnd, nodup_akeys_aerase _ _ hnc, ?_, ?_⟩
    · intro m hmem
      obtain ⟨hm1, hm2⟩ := (mem_akeys_aerase d.data key m hnd).mp hmem
      have hcl : irc_lower m ≠ irc_lower key := by
        intro hEq
        have h1 := hcanon m hm1
        have h2 := hcanon key hks
        rw [hEq, h2] at h1
        exact hm2 (Option.some_inj.mp h1).symm
      rw [alookup_aerase_ne _ _ _ hcl]
      exact hcanon m hm1
    · intro p hp
      obtain ⟨hp1, hp2⟩ := (mem_aerase_iff d.canon_keys (irc_lower key) p hnc).mp hp
      obtain ⟨h1, h2⟩ := hpairs p hp1
      refine ⟨h1, ?_⟩
      rw [mem_akeys_aerase d.data key _ hnd]
      refine ⟨h2, ?_⟩
      intro hEq
      rw [hEq] at h1
      exact hp2 (h1.trans rfl)
  · exact (alookup_eq_none_iff _ _).mpr fun hc =>
      ((mem_akeys_aerase d.data key key hnd).mp hc).2 rfl
  · intro m hne
    exact alookup_aerase_ne _ _ _ hne
  · intro m
    exact mem_akeys_aerase d.data key m hnd
  · exact alookup_aerase_self _ _ hnc
  · intro c hne
    exact alookup_aerase_ne _ _ _ hne

/-- `mutate` (the model of `self.channels[k].method(...)`) leaves
`canon_keys` untouched, updates the object in place, and makes the new
lookup the image of the old one under the mutation. -/
theorem mutate_spec (d : IRCDict V) (key : String) (f : V → Option V)
    (d' : IRCDict V) (h : d.mutate key f = some d') :
    d'.canon_keys = d.canon_keys ∧
    d'.getitem key = (d.getitem key).bind f ∧
    akeys d'.data = akeys d.data ∧
    (d'.getitem key).isSome = true := by
  unfold mutate at h
  split at h
  · cases h
  · rename_i k0 hck
    split at h
    · cases h
    · rename_i v hdv
      rcases hfv : f v with _ | v'
      · rw [hfv] at h
        cases h
      · rw [hfv] at h
        simp only [Option.map_some'] at h
        obtain rfl := Option.some_inj.mp h.symm
        refine ⟨rfl, ?_, ?_, ?_⟩
        · unfold getitem
          simp [hck, hdv, hfv, alookup_aset_self]
        · have hk0 : k0 ∈ akeys d.data := by
            have hiff := alookup_isSome_iff d.data k0
            rw [hdv] at hiff
            exact hiff.mp rfl
          exact akeys_aset_mem d.data k0 v' hk0
        · unfold getitem
          simp [hck, alookup_aset_self]

/-- Conditional deletion `if nick in d: del d[nick]` (one arm of
`Channel.remove_user`): under well-formedness it succeeds and removes
exactly the raw key `n` (or nothing). -/
theorem cond_delete_spec (d : IRCDict V) (n : String) (hwf : d.WF) :
    ∃ d', (if d.mem n then d.delitem n else some d) = some d' ∧ d'.WF ∧
      (∀ m, m ∈ akeys d'.data ↔ m ∈ akeys d.data ∧ m ≠ n) := by
  by_cases hm : d.mem n = true
  · obtain ⟨d', hdel, hwf', _, _, hkeys, _, _⟩ := delitem_spec d n hwf hm
    exact ⟨d', by rw [if_pos hm, hdel], hwf', hkeys⟩
  · have hm' : d.mem n = false := by
      cases hb : d.mem n
      · rfl
      · exact absurd hb hm
    refine ⟨d, by simp [hm'], hwf, ?_⟩
    intro m
    constructor
    · intro hmem
      refine ⟨hmem, ?_⟩
      intro hEq
      subst hEq
      have hs := (alookup_isSome_iff d.data m).mpr hmem
      simp [IRCDict.mem, hs] at hm'
    · intro ⟨hmem, _⟩
      exact hmem

end IRCDict


theorem set_mode_o_inv (ch : Channel) (n : String) (hinv : ChanInv ch)
    (hg : ch.has_user n = true) :
    ∃ ch', ch.set_mode "o" (some n) = some ch' ∧ ChanInv ch' := by
  obtain ⟨hu, ho, hv, hou, hvu⟩ := hinv
  have hn : n ∈ akeys ch.userdict.data := (alookup_isSome_iff _ n).mp hg
  have hok : ch.operdict.mem n = true ∨ ch.operdict.has_key n = false := by
    by_cases hm : ch.operdict.mem n = true
    · exact Or.inl hm
    · refine Or.inr ?_
      cases hk : ch.operdict.has_key n
      · rfl
      · exfalso
        rcases hks : alookup ch.operdict.canon_keys (irc_lower n) with _ | k'
        · simp [IRCDict.has_key, hks] at hk
        · have hp := ho.2.2.2 _ (alookup_mem _ _ _ hks)
          obtain ⟨hp1, hp2⟩ := hp
          simp only at hp1 hp2
          have hk'u : k' ∈ akeys ch.userdict.data := hou k' hp2
          have h1 := hu.2.2.1 k' hk'u
          have h2 := hu.2.2.1 n hn
          rw [hp1, h1] at h2
          obtain rfl := Option.some_inj.mp h2
          have hs := (alookup_isSome_iff ch.operdict.data _).mpr hp2
          exact hm hs
  obtain ⟨d', hset, hwf', hkeys⟩ := IRCDict.setitem_WF ch.operdict n 1 ho hok
  refine ⟨{ ch with operdict := d' }, ?_, hu, hwf', hv, ?_, hvu⟩
  · simp [Channel.set_mode, hset]
  · intro m hmem
    rcases (hkeys m).mp hmem with hmem | hmem
    · exact hou m hmem
    · exact hmem ▸ hn

theorem set_mode_v_inv (ch : Channel) (n : String) (hinv : ChanInv ch)
    (hg : ch.has_user n = true) :
    ∃ ch', ch.set_mode "v" (some n) = some ch' ∧ ChanInv ch' := by
  obtain ⟨hu, ho, hv, hou, hvu⟩ := hinv
  have hn : n ∈ akeys ch.userdict.data := (alookup_isSome_iff _ n).mp hg
  have hok : ch.voiceddict.mem n = true ∨ ch.voiceddict.has_key n = false := by
    by_cases hm : ch.voiceddict.mem n = true
    · exact Or.inl hm
    · refine Or.inr ?_
      cases hk : ch.voiceddict.has_key n
      · rfl
      · exfalso
        rcases hks : alookup ch.voiceddict.canon_keys (irc_lower n) with _ | k'
        · simp [IRCDict.has_key, hks] at hk
        · have hp := hv.2.2.2 _ (alookup_mem _ _ _ hks)
          obtain ⟨hp1, hp2⟩ := hp
          simp only at hp1 hp2
          have hk'u : k' ∈ akeys ch.userdict.data := hvu k' hp2
          have h1 := hu.2.2.1 k' hk'u
          have h2 := hu.2.2.1 n hn
          rw [hp1, h1] at h2
          obtain rfl := Option.some_inj.mp h2
          have hs := (alookup_isSome_iff ch.voiceddict.data _).mpr hp2
          exact hm hs
  obtain ⟨d', hset, hwf', hkeys⟩ := IRCDict.setitem_WF ch.voiceddict n 1 hv hok
  refine ⟨{ ch with voiceddict := d' }, ?_, hu, ho, hwf', hou, ?_⟩
  · simp [Channel.set_mode, hset]
  · intro m hmem
    rcases (hkeys m).mp hmem with hmem | hmem
    · exact hvu m hmem
    · exact hmem ▸ hn

theorem remove_user_inv (ch : Channel) (n : String) (hinv : ChanInv ch) :
    ∃ ch', ch.remove_user n = some ch' ∧ ChanInv ch' := by
  obtain ⟨hu, ho, hv, hou, hvu⟩ := hinv
  obtain ⟨u', hueq, huwf, hukeys⟩ := IRCDict.cond_delete_spec ch.userdict n hu
  obtain ⟨o', hoeq, howf, hokeys⟩ := IRCDict.cond_delete_spec ch.operdict n ho
  obtain ⟨v', hveq, hvwf, hvkeys⟩ := IRCDict.cond_delete_spec ch.voiceddict n hv
  refine ⟨{ ch with userdict := u', operdict := o', voiceddict := v' }, ?_,
          huwf, howf, hvwf, ?_, ?_⟩
  · simp only [Channel.remove_user, hueq, hoeq, hveq, Option.bind_some]
    rfl
  · intro m hmem
    obtain ⟨hm1, hm2⟩ := (hokeys m).mp hmem
    exact (hukeys m).mpr ⟨hou m hm1, hm2⟩
  · intro m hmem
    obtain ⟨hm1, hm2⟩ := (hvkeys m).mp hmem
    exact (hukeys m).mpr ⟨hvu m hm1, hm2⟩


/-- The channel invariant is preserved along any guarded trace. -/
theorem chanInv_trace : ∀ {ch : Channel} {ops : List ChanOp} {ch' : Channel},
    ChanTrace ch ops ch' → ChanInv ch → ChanInv ch' := by
  intro ch ops ch' ht
  induction ht with
  | nil => exact id
  | cons hg happ htr ih =>
      rename_i chA ch1 ch2 op ops0
      intro hinv
      apply ih
      rcases op with n | n | n
      · obtain ⟨chX, hX, hXinv⟩ := set_mode_o_inv chA n hinv hg
        have happ' : chA.set_mode "o" (some n) = some ch1 := happ
        rw [hX] at happ'
        obtain rfl := Option.some_inj.mp happ'
        exact hXinv
      · obtain ⟨chX, hX, hXinv⟩ := set_mode_v_inv chA n hinv hg
        have happ' : chA.set_mode "v" (some n) = some ch1 := happ
        rw [hX] at happ'
        obtain rfl := Option.some_inj.mp happ'
        exact hXinv
      · obtain ⟨chX, hX, hXinv⟩ := remove_user_inv chA n hinv
        have happ' : chA.remove_user n = some ch1 := happ
        rw [hX] at happ'
        obtain rfl := Option.some_inj.mp happ'
        exact hXinv

/-- The `d[after] = 1; del d[before]` step of `Channel.change_nick` on a
well-formed dict, for `after` not casefold-equivalent to `before`:
both operations succeed, `after` ends up stored, `before` is gone. -/
theorem IRCDict.set_then_del_spec (d : IRCDict V) (n1 n2 : String) (v : V)
    (hwf : d.WF) (hm : d.mem n1 = true) (hne : irc_lower n2 ≠ irc_lower n1) :
    ∃ d1 d2, d.setitem n2 v = some d1 ∧ d1.delitem n1 = some d2 ∧
      alookup d2.data n2 = some v ∧ alookup d2.data n1 = none := by
  have hne' : n2 ≠ n1 := by
    intro h
    exact hne (by rw [h])
  have hn1ne2 : n1 ≠ n2 := fun h => hne' h.symm
  obtain ⟨d1, hset, hkey, hother, hkeys, hcother, hckey, hnd1, hnc1⟩ :=
    IRCDict.setitem_spec d n2 v hwf
  have hn1keys : n1 ∈ akeys d.data := (alookup_isSome_iff _ _).mp hm
  have hcan1 : alookup d1.canon_keys (irc_lower n1) = some n1 := by
    rw [hcother (irc_lower n1) (Ne.symm hne)]
    exact hwf.2.2.1 n1 hn1keys
  rcases hdv : alookup d.data n1 with _ | w
  · exfalso
    simp [IRCDict.mem, hdv] at hm
  · have hdata1 : alookup d1.data n1 = some w := by
      rw [hother n1 hn1ne2, hdv]
    have hdel : d1.delitem n1 =
        some ⟨aerase d1.data n1, aerase d1.canon_keys (irc_lower n1)⟩ := by
      unfold IRCDict.delitem
      rw [hcan1]
      simp [hdata1]
    refine ⟨d1, _, hset, hdel, ?_, ?_⟩
    · rw [alookup_aerase_ne _ _ _ hne', hkey]
    · exact alookup_aerase_self _ _ hnd1

/-- Claim C4 (amended): for every channel whose three maps are
well-formed, in which `nick1` is a member with operator status, and for
every `nick2` that is *not* casefold-equivalent to `nick1`,
`change_nick nick1 nick2` succeeds and afterwards `nick2` is a member
and an operator while `nick1` is gone.  (For a casefold-equivalent
respelling the code instead deletes the user — see the
counterexample.) -/
theorem change_nick_carries_status (ch : Channel) (n1 n2 : String)
    (hu : ch.userdict.WF) (ho : ch.operdict.WF) (hv : ch.voiceddict.WF)
    (hm : ch.has_user n1 = true) (hop : ch.is_oper n1 = true)
    (hne : irc_lower n2 ≠ irc_lower n1) :
    ∃ ch', ch.change_nick n1 n2 = some ch' ∧
      ch'.is_oper n2 = true ∧ ch'.has_user n2 = true ∧ ch'.has_user n1 = false := by
  obtain ⟨u1, u2, hsetu, hdelu, hu2n2, hu2n1⟩ :=
    IRCDict.set_then_del_spec ch.userdict n1 n2 1 hu hm hne
  obtain ⟨o1, o2, hseto, hdelo, ho2n2, _⟩ :=
    IRCDict.set_then_del_spec ch.operdict n1 n2 1 ho hop hne
  have hop' : ch.operdict.mem n1 = true := hop
  by_cases hmv : ch.voiceddict.mem n1 = true
  · obtain ⟨v1, v2, hsetv, hdelv, _, _⟩ :=
      IRCDict.set_then_del_spec ch.voiceddict n1 n2 1 hv hmv hne
    refine ⟨{ ch with userdict := u2, operdict := o2, voiceddict := v2 },
            ?_, ?_, ?_, ?_⟩
    · simp [Channel.change_nick, hsetu, hdelu, hop', hmv, hseto, hdelo, hsetv, hdelv]
    · simp [Channel.is_oper, IRCDict.mem, ho2n2]
    · simp [Channel.has_user, IRCDict.mem, hu2n2]
    · simp [Channel.has_user, IRCDict.mem, hu2n1]
  · simp only [Bool.not_eq_true] at hmv
    refine ⟨{ ch with userdict := u2, operdict := o2 }, ?_, ?_, ?_, ?_⟩
    · simp [Channel.change_nick, hsetu, hdelu, hop', hmv, hseto, hdelo]
    · simp [Channel.is_oper, IRCDict.mem, ho2n2]
    · simp [Channel.has_user, IRCDict.mem, hu2n2]
    · simp [Channel.has_user, IRCDict.mem, hu2n1]

/-- After a successful `__delitem__`, the casefolded lookup of the deleted
key fails (given duplicate-free canonical keys). -/
theorem IRCDict.delitem_getitem_none (d : IRCDict V) (key : String)
    (d' : IRCDict V) (hnc : (akeys d.canon_keys).Nodup)
    (h : d.delitem key = some d') : d'.getitem key = none := by
  unfold IRCDict.delitem at h
  split at h
  · cases h
  · rename_i k0 hck
    split at h
    · obtain rfl := Option.some_inj.mp h.symm
      unfold IRCDict.getitem
      rw [alookup_aerase_self _ _ hnc]
      rfl
    · cases h

/-- Claim C5 (amended): `_on_join`, `_on_kick` and `_on_part` classify an
event as concerning the bot itself by *raw* equality of the nick with
the session's own nickname, not by casefolding: when the nick equals the
session nickname, a join installs a fresh channel whose only member is
that nick and a kick/part deletes the channel's entry; when it differs
(even as a casefold-equivalent respelling), a join preserves the
existing members and a kick/part leaves the channel present. -/
theorem handlers_self_by_raw_equality (st : Session) (nick target : String)
    (c : Channel) (hW : st.channels.WF)
    (hc : st.channels.getitem target = some c) :
    (nick = st.nick → ∀ st', onJoin st nick target = some st' →
       ∃ c', st'.channels.getitem target = some c' ∧ c'.users = [nick]) ∧
    (nick ≠ st.nick → c.userdict.WF → ∀ m, c.has_user m = true → m ≠ nick →
       ∀ st', onJoin st nick target = some st' →
       ∃ c', st'.channels.getitem target = some c' ∧ c'.has_user m = true) ∧
    (nick = st.nick → ∀ st', onKick st nick target = some st' →
       st'.channels.getitem target = none) ∧
    (nick ≠ st.nick → ∀ st', onKick st nick target = some st' →
       (st'.channels.getitem target).isSome = true) ∧
    (nick = st.nick → ∀ st', onPart st nick target = some st' →
       st'.channels.getitem target = none) ∧
    (nick ≠ st.nick → ∀ st', onPart st nick target = some st' →
       (st'.channels.getitem target).isSome = true) := by
  refine ⟨?_, ?_, ?_, ?_, ?_, ?_⟩
  · intro hEq st' hJ
    obtain ⟨d1, hset, hkey1, hother1, hkeys1, hcother1, hckey1, hnd1, hnc1⟩ :=
      IRCDict.setitem_spec st.channels target Channel.init hW
    unfold onJoin at hJ
    rw [if_pos hEq, hset] at hJ
    simp only [Option.map_some', Option.some_bind] at hJ
    unfold Session.mutateChannel at hJ
    rcases hmu : IRCDict.mutate { st with channels := d1 }.channels target
        (fun c => c.add_user nick) with _ | d2
    · rw [hmu] at hJ
      cases hJ
    · rw [hmu] at hJ
      simp only [Option.map_some'] at hJ
      obtain rfl := Option.some_inj.mp hJ.symm
      have hg1 : d1.getitem target = some Channel.init := by
        unfold IRCDict.getitem
        rw [hckey1]
        simpa using hkey1
      obtain ⟨_, hget2, _, _⟩ := IRCDict.mutate_spec d1 target _ d2 hmu
      refine ⟨⟨⟨[(nick, 1)], [(irc_lower nick, nick)]⟩, .empty, .empty, []⟩, ?_, rfl⟩
      rw [hget2, hg1]
      rfl
  · intro hne hcu m hm hmn st' hJ
    unfold onJoin at hJ
    rw [if_neg hne] at hJ
    simp only [Option.some_bind] at hJ
    unfold Session.mutateChannel at hJ
    rcases hmu : IRCDict.mutate st.channels target
        (fun c => c.add_user nick) with _ | d2
    · rw [hmu] at hJ
      cases hJ
    · rw [hmu] at hJ
      simp only [Option.map_some'] at hJ
      obtain rfl := Option.some_inj.mp hJ.symm
      obtain ⟨_, hget2, _, _⟩ := IRCDict.mutate_spec st.channels target _ d2 hmu
      obtain ⟨cu', hsetcu, hkeycu, hothercu, _, _, _, _, _⟩ :=
        IRCDict.setitem_spec c.userdict nick 1 hcu
      have haddc : c.add_user nick = some { c with userdict := cu' } := by
        simp [Channel.add_user, hsetcu]
      refine ⟨{ c with userdict := cu' }, ?_, ?_⟩
      · rw [hget2, hc]
        simpa using haddc
      · have := hothercu m hmn
        simp only [Channel.has_user, IRCDict.mem] at hm ⊢
        rw [this]
        exact hm
  · intro hEq st' hK
    unfold onKick at hK
    rw [if_pos hEq] at hK
    rcases hdel : st.channels.delitem target with _ | d2
    · rw [hdel] at hK
      cases hK
    · rw [hdel] at hK
      simp only [Option.map_some'] at hK
      obtain rfl := Option.some_inj.mp hK.symm
      exact IRCDict.delitem_getitem_none st.channels target d2 hW.2.1 hdel
  · intro hne st' hK
    unfold onKick at hK
    rw [if_neg hne] at hK
    unfold Session.mutateChannel at hK
    rcases hmu : IRCDict.mutate st.channels target
        (fun c => c.remove_user nick) with _ | d2
    · rw [hmu] at hK
      cases hK
    · rw [hmu] at hK
      simp only [Option.map_some'] at hK
      obtain rfl := Option.some_inj.mp hK.symm
      obtain ⟨_, _, _, hsome⟩ := IRCDict.mutate_spec st.channels target _ d2 hmu
      exact hsome
  · intro hEq st' hP
    unfold onPart at hP
    rw [if_pos hEq] at hP
    rcases hdel : st.channels.delitem target with _ | d2
    · rw [hdel] at hP
      cases hP
    · rw [hdel] at hP
      simp only [Option.map_some'] at hP
      obtain rfl := Option.some_inj.mp hP.symm
      exact IRCDict.delitem_getitem_none st.channels target d2 hW.2.1 hdel
  · intro hne st' hP
    unfold onPart at hP
    rw [if_neg hne] at hP
    unfold Session.mutateChannel at hP
    rcases hmu : IRCDict.mutate st.channels target
        (fun c => c.remove_user nick) with _ | d2
    · rw [hmu] at hP
      cases hP
    · rw [hmu] at hP
      simp only [Option.map_some'] at hP
      obtain rfl := Option.some_inj.mp hP.symm
      obtain ⟨_, _, _, hsome⟩ := IRCDict.mutate_spec st.channels target _ d2 hmu
      exact hsome

theorem self_mem_akeys_aset {V : Type} (l : KVList V) (k : String) (v : V) :
    k ∈ akeys (aset l k v) := by
  have h := alookup_aset_self l k v
  have := (alookup_isSome_iff (aset l k v) k).mp (by rw [h]; rfl)
  exact this

theorem mem_akeys_aset_of_mem {V : Type} (l : KVList V) (key m : String) (v : V)
    (h : m ∈ akeys l) : m ∈ akeys (aset l key v) := by
  by_cases hk : key ∈ akeys l
  · rw [akeys_aset_mem l key v hk]
    exact h
  · rw [akeys_aset_not_mem l key v hk]
    exact List.mem_append_left _ h

theorem mem_akeys_foldl_aset {V : Type} :
    ∀ (src : KVList V) (init : KVList V) (k : String),
      (k ∈ akeys src ∨ k ∈ akeys init) →
      k ∈ akeys (src.foldl (fun a kv => aset a kv.1 kv.2) init) := by
  intro src
  induction src with
  | nil =>
      intro init k h
      rcases h with h | h
      · simp [akeys] at h
      · simpa using h
  | cons p t ih =>
      intro init k h
      rw [List.foldl_cons]
      apply ih
      rcases h with h | h
      · rcases List.mem_cons.mp h with h | h
        · exact Or.inr (h ▸ self_mem_akeys_aset init p.1 p.2)
        · exact Or.inl h
      · exact Or.inr (mem_akeys_aset_of_mem init p.1 k p.2 h)

theorem aerase_not_mem {V : Type} (l : KVList V) (k : String)
    (h : k ∉ akeys l) : aerase l k = l := by
  induction l with
  | nil => rfl
  | cons p t ih =>
      obtain ⟨k', w⟩ := p
      simp only [akeys, List.map_cons, List.mem_cons] at h
      push_neg at h
      have hk : ¬(k' = k) := fun hh => h.1 hh.symm
      simp [aerase, hk, ih h.2]

/-- Claim C7: clearing a mode that is not set is a silent no-op:
if the letter is absent from `modes` (for ordinary letters), or the nick
is absent — up to casefolding — from the operator/voiced set (for
`"o"`/`"v"`), `clear_mode` raises no error and returns the state
unchanged; in particular `clearMode('l', None)` on a channel without a
limit leaves `has_limit` false. -/
theorem clear_mode_unset_noop (ch : Channel) (mode : String) (value : Option String)
    (ho : mode = "o" → ∃ n, value = some n ∧ ch.operdict.has_key n = false)
    (hv : mode = "v" → ∃ n, value = some n ∧ ch.voiceddict.has_key n = false)
    (hm : mode ≠ "o" → mode ≠ "v" → alookup ch.modes mode = none) :
    ch.clear_mode mode value = some ch ∧
    (mode = "l" → ch.has_limit = false) := by
  by_cases hmo : mode = "o"
  · subst hmo
    obtain ⟨n, rfl, hk⟩ := ho rfl
    have halk : alookup ch.operdict.canon_keys (irc_lower n) = none := by
      rcases hx : alookup ch.operdict.canon_keys (irc_lower n) with _ | k0
      · rfl
      · simp [IRCDict.has_key, hx] at hk
    have hdel : ch.operdict.delitem n = none := by
      unfold IRCDict.delitem
      rw [halk]
    constructor
    · unfold Channel.clear_mode
      rw [if_pos rfl]
      show some (match ch.operdict.delitem n with
                 | some o => { ch with operdict := o }
                 | none => ch) = some ch
      rw [hdel]
    · intro h
      exact absurd h (by decide)
  · by_cases hmv : mode = "v"
    · subst hmv
      obtain ⟨n, rfl, hk⟩ := hv rfl
      have halk : alookup ch.voiceddict.canon_keys (irc_lower n) = none := by
        rcases hx : alookup ch.voiceddict.canon_keys (irc_lower n) with _ | k0
        · rfl
        · simp [IRCDict.has_key, hx] at hk
      have hdel : ch.voiceddict.delitem n = none := by
        unfold IRCDict.delitem
        rw [halk]
      constructor
      · unfold Channel.clear_mode
        rw [if_neg (by decide : ¬("v" = "o")), if_pos rfl]
        show some (match ch.voiceddict.delitem n with
                   | some v => { ch with voiceddict := v }
                   | none => ch) = some ch
        rw [hdel]
      · intro h
        exact absurd h (by decide)
    · have hnone := hm hmo hmv
      have hnm : mode ∉ akeys ch.modes := (alookup_eq_none_iff _ _).mp hnone
      constructor
      · unfold Channel.clear_mode
        rw [if_neg hmo, if_neg hmv, aerase_not_mem ch.modes mode hnm]
      · intro hml
        subst hml
        simp [Channel.has_limit, Channel.has_mode, hnone]

/-- Claim C8: for a server rotation of length at least two,
`jump_server` moves the head to the tail, leaves the relative order of
the remaining elements unchanged (the new list is the old tail followed
by the old head), the new head is the previous second element, and the
connection attempt made targets that new head. -/
theorem jump_server_rotates (a b : Server) (rest : List Server)
    (nick user real : String) (ssl conn : Bool) (msg : String) :
    jump_server ⟨a :: b :: rest, nick, user, real, ssl, conn⟩ msg =
      some (b :: (rest ++ [a]), (if conn then some msg else none),
            mkConnect nick user real ssl b) ∧
    (b :: (rest ++ [a])).head? = some b := ⟨rfl, rfl⟩

/-- Claim C9: a configured reconnection interval that is zero or
negative (or a `None` argument) is replaced by the sentinel `2^31`
seconds, while every strictly positive interval is stored unchanged. -/
theorem reconnection_interval_sentinel (v : Int) :
    (v ≤ 0 → storedReconnectionInterval (some v) = 2 ^ 31) ∧
    (0 < v → storedReconnectionInterval (some v) = v) ∧
    storedReconnectionInterval none = 2 ^ 31 := by
  refine ⟨?_, ?_, rfl⟩
  · intro h
    show (if v = 0 ∨ v < 0 then (2 : Int) ^ 31 else v) = 2 ^ 31
    rw [if_pos (by omega : v = 0 ∨ v < 0)]
  · intro h
    show (if v = 0 ∨ v < 0 then (2 : Int) ^ 31 else v) = v
    rw [if_neg (by omega : ¬(v = 0 ∨ v < 0))]

/-! ### Claim theorems -/

/-- Claim C1 (code bug): after `set("A", 1)`, the casefolded lookup
`get("a")` does return the value, and `has_key("a")` is true, but the
membership test `contains("a")` (`IRCDict.__contains__`) is false because
it tests the raw spelling against `self.data` instead of using
casefolding — contradicting the class's own docstring ("keys a and b are
considered equal if and only if irc_lower(a) == irc_lower(b)"). -/
theorem contains_raw_spelling_bug_eval :
    irc_lower "A" = irc_lower "a" ∧
    (IRCDict.empty.setitem "A" (1 : Nat)).map
        (fun d => (d.getitem "a", d.mem "a", d.has_key "a")) =
      some (some 1, false, true) := by decide

/-- Claim C2 (code bug): re-inserting under the casefold-equivalent but
differently-spelled key `"a"` after `set("A", 1)` does *not* remove the
old entry: `__setitem__`'s `if key in self` check uses the raw-spelling
`__contains__`, so the backing store ends up holding both `"A"` and
`"a"` — two entries in one equivalence class, and iteration yields both
spellings, contradicting the documented dictionary behaviour. -/
theorem setitem_equivalent_respelling_bug_eval :
    irc_lower "A" = irc_lower "a" ∧
    ((IRCDict.empty.setitem "A" (1 : Nat)).bind (fun d => d.setitem "a" 2)).map
        (fun d => akeys d.data) = some ["A", "a"] := by decide

/-- Claim C3, counterexample: from a fresh `Channel`, the single-element
sequence `setMode('o', "n")` puts `"n"` into the operator set without
adding it to the member set, so `operators ⊆ members` fails (the member
list is empty). -/
theorem set_mode_o_nonmember_counterexample :
    Channel.init.set_mode "o" (some "n") =
      some ⟨.empty, ⟨[("n", 1)], [("n", "n")]⟩, .empty, []⟩ ∧
    (⟨.empty, ⟨[("n", 1)], [("n", "n")]⟩, .empty, []⟩ : Channel).is_oper "n" = true ∧
    (⟨.empty, ⟨[("n", 1)], [("n", "n")]⟩, .empty, []⟩ : Channel).users = [] := by decide

/-- Claim C3 (amended): for every channel state whose three maps are
well-formed and which satisfies `operators ⊆ members` and
`voiced ⊆ members` by stored spelling, every successful sequence of
`setMode('o', n)` / `setMode('v', n)` / `removeUser(n)` calls in which
each `setMode` targets a current member preserves the invariant; in
particular every operator and voiced nick is casefold-equivalent to a
member. -/
theorem channel_invariant_guarded_trace (ch : Channel) (ops : List ChanOp)
    (ch' : Channel) (hinv : ChanInv ch) (ht : ChanTrace ch ops ch') :
    ChanInv ch' ∧
    (∀ m ∈ ch'.opers, ∃ u ∈ ch'.users, irc_lower u = irc_lower m) ∧
    (∀ m ∈ ch'.voicedUsers, ∃ u ∈ ch'.users, irc_lower u = irc_lower m) := by
  have hinv' := chanInv_trace ht hinv
  refine ⟨hinv', ?_, ?_⟩
  · intro m hm
    exact ⟨m, hinv'.2.2.2.1 m hm, rfl⟩
  · intro m hm
    exact ⟨m, hinv'.2.2.2.2 m hm, rfl⟩


theorem channel_invariant_guarded_trace_witness :
    ChanInv Channel.init ∧
    (∀ m ∈ Channel.init.opers, ∃ u ∈ Channel.init.users, irc_lower u = irc_lower m) ∧
    (∀ m ∈ Channel.init.voicedUsers, ∃ u ∈ Channel.init.users, irc_lower u = irc_lower m) :=
  channel_invariant_guarded_trace c3WitnessChannel
    [ChanOp.setO "n", ChanOp.rmU "n"] Channel.init (by decide)
    (@ChanTrace.cons c3WitnessChannel c3WitnessChannel Channel.init
      (ChanOp.setO "n") [ChanOp.rmU "n"] (by decide) (by decide)
      (@ChanTrace.cons c3WitnessChannel Channel.init Channel.init
        (ChanOp.rmU "n") [] trivial (by decide) (ChanTrace.nil Channel.init)))


/-- Claim C4, counterexample: renaming the operator `"ab"` to the
casefold-equivalent respelling `"AB"` leaves a state in which the new
nick is neither a member nor an operator while the old spelling is still
a member — `del userdict[before]` deletes the just-inserted new spelling
through `canon_keys`. -/
theorem change_nick_equivalent_respelling_counterexample :
    irc_lower "AB" = irc_lower "ab" ∧
    (c4CounterChannel.change_nick "ab" "AB").map
        (fun ch => (ch.has_user "AB", ch.is_oper "AB", ch.has_user "ab")) =
      some (false, false, true) := by decide


theorem change_nick_carries_status_witness :
    ∃ ch', c4WitnessChannel.change_nick "alice" "Bob" = some ch' ∧
      ch'.is_oper "Bob" = true ∧ ch'.has_user "Bob" = true ∧
      ch'.has_user "alice" = false :=
  change_nick_carries_status c4WitnessChannel "alice" "Bob"
    (by decide) (by decide) (by decide) (by decide) (by decide) (by decide)


/-- Claim C5, counterexample: a join whose actor nick `"bot"` is a
differently-cased casefold-equivalent of the session nickname `"Bot"`
does *not* create a fresh `Channel` — the raw `==` comparison in
`_on_join` classifies it as another user, so the existing member
`"alice"` survives and `"bot"` is merely added. -/
theorem on_join_equivalent_nick_counterexample :
    irc_lower "bot" = irc_lower "Bot" ∧ "bot" ≠ "Bot" ∧
    (onJoin c5CounterSession "bot" "#c").bind
        (fun st => (st.channels.getitem "#c").map (fun c => c.users)) =
      some ["alice", "bot"] := by decide


theorem handlers_self_by_raw_equality_witness :
    (⟨"Bot", IRCDict.empty⟩ : Session).channels.getitem "#c" = none :=
  (handlers_self_by_raw_equality c5WitnessSession "Bot" "#c" c5WitnessChannel
      (by decide) (by decide)).2.2.1 rfl ⟨"Bot", IRCDict.empty⟩ (by decide)


/-- Claim C6 (code bug): processing the NAMES nick list
`"ab Ab AB"` (three casefold-equivalent spellings) once yields members
`["ab", "Ab", "AB"]`, but processing it twice yields `["Ab", "AB"]` —
the second pass's `add_user "ab"` deletes the entry `"AB"` through
`canon_keys` and the membership set shrinks, so the handler is not
idempotent.  With `__contains__` behaving as the `IRCDict` docstring
promises (casefold equality), the handler would be idempotent. -/
theorem namreply_not_idempotent_eval :
    (onNamreply c6Session "#c" c6Toks).bind
        (fun st => (st.channels.getitem "#c").map (fun c => c.users)) =
      some ["ab", "Ab", "AB"] ∧
    ((onNamreply c6Session "#c" c6Toks).bind
        (fun st => onNamreply st "#c" c6Toks)).bind
        (fun st => (st.channels.getitem "#c").map (fun c => c.users)) =
      some ["Ab", "AB"] ∧
    "ab" ∈ (["ab", "Ab", "AB"] : List String) ∧
    "ab" ∉ (["Ab", "AB"] : List String) := by decide

theorem clear_mode_unset_noop_witness :
    Channel.init.clear_mode "l" none = some Channel.init ∧
    ("l" = "l" → Channel.init.has_limit = false) :=
  clear_mode_unset_noop Channel.init "l" none
    (fun h => absurd h (by decide)) (fun h => absurd h (by decide))
    (fun _ _ => rfl)

theorem reconnection_interval_sentinel_witness :
    storedReconnectionInterval (some (-5)) = 2 ^ 31 ∧
    storedReconnectionInterval (some 60) = 60 :=
  ⟨(reconnection_interval_sentinel (-5)).1 (by decide),
   (reconnection_interval_sentinel 60).2.1 (by decide)⟩

/-- Claim C10, counterexample: when the target dict already has a
canonical key registered for the class (here from a previous
`set("a", 1)`), a key inserted by `update` *can* be looked up — the
claimed "always raises KeyNotFound" fails for the update path. -/
theorem update_registered_class_counterexample :
    ((IRCDict.empty.setitem "a" (1 : Nat)).map
        (fun d => (d.update [("a", 2)]).getitem "a")) = some (some 2) := by decide

/-- Claim C10 (amended): constructing an `IRCDict` from a mapping copies
the entries into `data` but registers no canonical keys, so on the
freshly constructed dict every indexed lookup fails (`canon_keys` is
empty) while iteration still yields each copied key. -/
theorem ofKVList_lookup_fails {V : Type} (src : KVList V) (k : String)
    (h : k ∈ akeys src) :
    (IRCDict.ofKVList src).getitem k = none ∧
    k ∈ akeys (IRCDict.ofKVList src).data ∧
    (IRCDict.ofKVList src).canon_keys = [] := by
  refine ⟨rfl, ?_, rfl⟩
  exact mem_akeys_foldl_aset src [] k (Or.inl h)

theorem ofKVList_lookup_fails_witness :
    (IRCDict.ofKVList [("x", (1 : Nat))]).getitem "x" = none ∧
    "x" ∈ akeys (IRCDict.ofKVList [("x", (1 : Nat))]).data ∧
    (IRCDict.ofKVList [("x", (1 : Nat))]).canon_keys = [] :=
  ofKVList_lookup_fails [("x", 1)] "x" (by decide)
